import Mathlib

/-!
Shallow embedding of `src/protocol.py` (classes `TCPSegment` and
`MyTCPProtocol`).  Bytes are `Nat` values in a `List`, Python `int`
counters are `Int`.  The datagram socket is modelled by three oracles:
`sendO i` is the byte count the `i`-th `sendto` call reports written,
`recvO i` is the outcome of the `i`-th `recvfrom` attempt (`none` for a
timeout or socket error), and `expO i` is the value of the `expired`
property at the `i`-th expiry inspection (this abstracts the wall clock
used by `_sending_time`).  Both priority queues are represented as lists
sorted by key, with `pqPut` the sorted insertion and the head playing the
role of `queue[0]` / `get()`.  Each segment handed to `sendto` is also
recorded in a ghost log `wire`, together with the call site, the value of
`received_bytes` at that moment and the accepted payload length, so that
statements about emitted segments can be made.
-/

namespace MyTCP

/-- Big-endian value of a byte list, as computed by `int.from_bytes(·, "big")`. -/
def fromBytesBE (l : List Nat) : Nat :=
  l.foldl (fun a b => a * 256 + b) 0

/-- Big-endian encoding of `v` on `k` bytes, as `int.to_bytes(k, "big")` for
`v < 256 ^ k`. -/
def toBytesBE : Nat → Nat → List Nat
  | 0, _ => []
  | k + 1, v => toBytesBE k (v / 256) ++ [v % 256]

/-- Wire segment: fields `seq_number`, `ack_number`, `data` of class
`TCPSegment` (`_sending_time` is handled by the `expO` oracle). -/
structure TCPSegment where
  seq_number : Int
  ack_number : Int
  data : List Nat
deriving Repr, DecidableEq

/-- Header size: `TCPSegment.service_len = 8 + 8`. -/
def service_len : Nat := 16

/-- Maximum segment size: `self.mss = 1500`. -/
def mss : Nat := 1500

/-- Window size: `self.window_size = self.mss * 12`. -/
def window_size : Nat := mss * 12

/-- Maximum acknowledgment lag: `self.ack_crit_lag = 20`. -/
def ack_crit_lag : Nat := 20

/-- Encoding `TCPSegment.dump`: seq and ack as 8-byte big-endian, then the
payload.  `int.to_bytes(8, "big", signed=False)` raises unless
`0 ≤ v < 2 ^ 64`, which is modelled by returning `none`. -/
def TCPSegment.dump (s : TCPSegment) : Option (List Nat) :=
  if 0 ≤ s.seq_number ∧ s.seq_number < 2 ^ 64 ∧ 0 ≤ s.ack_number ∧ s.ack_number < 2 ^ 64 then
    some (toBytesBE 8 s.seq_number.toNat ++ toBytesBE 8 s.ack_number.toNat ++ s.data)
  else
    none

/-- Decoding `TCPSegment.load`: `data[:8]`, `data[8:16]` and
`data[service_len:]`; Python slices never fail. -/
def TCPSegment.load (d : List Nat) : TCPSegment :=
  { seq_number := (fromBytesBE (d.take 8) : Int)
    ack_number := (fromBytesBE ((d.drop 8).take 8) : Int)
    data := d.drop service_len }

/-- Call sites of `_send_segment`: the fresh segment built in the send loop,
the retransmission in `_resend_earliest_segment`, and the pure
acknowledgment built in `_receive_segment`. -/
inductive WireTag where
  | first
  | retrans
  | pureAck
deriving Repr, DecidableEq

/-- Ghost record of one `sendto` call: the segment as dumped, the value of
`received_bytes` at that moment, and the accepted payload length
`total_sent - service_len`. -/
structure WireEntry where
  tag : WireTag
  seg : TCPSegment
  recvAt : Int
  accepted : Int
deriving Repr, DecidableEq

/-- Oracles standing for the datagram channel and the clock. -/
structure Chan where
  sendO : Nat → Nat
  recvO : Nat → Option (List Nat)
  expO : Nat → Bool

/-- Endpoint state of `MyTCPProtocol`, plus the oracle cursors `sIdx`, `rIdx`,
`eIdx` and the ghost `wire` log. -/
structure Endpoint where
  sent_bytes : Int
  confirmed_bytes : Int
  received_bytes : Int
  send_window : List (Int × TCPSegment)
  recv_window : List (Int × TCPSegment)
  buffer : List Nat
  sIdx : Nat
  rIdx : Nat
  eIdx : Nat
  wire : List WireEntry
deriving Repr, DecidableEq

/-- State created by `MyTCPProtocol.__init__`: all counters zero, both
windows empty, empty read buffer. -/
def initEndpoint : Endpoint :=
  ⟨0, 0, 0, [], [], [], 0, 0, 0, []⟩

/-- Sorted insertion, modelling `PriorityQueue.put((key, segment))`. -/
def pqPut (x : Int × TCPSegment) : List (Int × TCPSegment) → List (Int × TCPSegment)
  | [] => [x]
  | y :: ys => if x.1 ≤ y.1 then x :: y :: ys else y :: pqPut x ys

/-- Python slice `l[i:]` for an `int` index (negative indices count from the
end, as in `data = data[sent_length:]`). -/
def pyDrop (l : List Nat) (i : Int) : List Nat :=
  if 0 ≤ i then l.drop i.toNat else l.drop ((l.length : Int) + i).toNat

/-- Python slice `l[:i]` for an `int` index. -/
def pyTake (l : List Nat) (i : Int) : List Nat :=
  if 0 ≤ i then l.take i.toNat else l.take ((l.length : Int) + i).toNat

/-- Loop of `MyTCPProtocol._process_recv_window` on
(recv_window, received_bytes, buffer). -/
def processRecvWindow :
    List (Int × TCPSegment) → Int → List Nat → List (Int × TCPSegment) × Int × List Nat
  | [], r, b => ([], r, b)
  | (k, s) :: rest, r, b =>
    if s.seq_number = r then
      processRecvWindow rest (r + s.data.length) (b ++ s.data)
    else if r < s.seq_number then
      (pqPut (k, s) rest, r, b)
    else
      processRecvWindow rest r b

/-- The same loop acting on the endpoint state. -/
def processRecvWindowSt (st : Endpoint) : Endpoint :=
  let out := processRecvWindow st.recv_window st.received_bytes st.buffer
  { st with recv_window := out.1, received_bytes := out.2.1, buffer := out.2.2 }

/-- Loop of `MyTCPProtocol._process_send_window`: drop queue entries whose
key is below `confirmed_bytes`. -/
def processSendWindow (confirmed : Int) :
    List (Int × TCPSegment) → List (Int × TCPSegment)
  | [] => []
  | (k, s) :: rest =>
    if k < confirmed then processSendWindow confirmed rest else (k, s) :: rest

/-- Body of `MyTCPProtocol._send_segment`.  `total` is what `sendto` reports
written, clamped by the datagram size `service_len + len(data)`;
`dataSentLen = total_sent - service_len` may be negative in principle.
The segment is truncated in place to the accepted payload and inserted
into the send window only when the accepted payload is positive. -/
def sendSegment (ch : Chan) (tag : WireTag) (seg : TCPSegment) (st : Endpoint) :
    Int × Endpoint :=
  let total : Nat := min (ch.sendO st.sIdx) (service_len + seg.data.length)
  let dataSentLen : Int := (total : Int) - (service_len : Int)
  let st1 : Endpoint := { st with
    sIdx := st.sIdx + 1
    wire := st.wire ++ [⟨tag, seg, st.received_bytes, dataSentLen⟩] }
  let st2 : Endpoint :=
    if seg.seq_number = st1.sent_bytes then
      { st1 with sent_bytes := st1.sent_bytes + dataSentLen }
    else st1
  let truncated : TCPSegment := { seg with data := seg.data.take dataSentLen.toNat }
  let st3 : Endpoint :=
    if 0 < dataSentLen then
      { st2 with send_window := pqPut (seg.seq_number, truncated) st2.send_window }
    else st2
  (dataSentLen, st3)

/-- Body of `MyTCPProtocol._receive_segment`.  One `recvfrom` attempt of at
most `mss + service_len` bytes; on failure return `False`.  A segment with
payload goes through the receive window and triggers a pure
acknowledgment; then `confirmed_bytes` is overwritten with the inbound
`ack_number` and the send window is pruned. -/
def receiveSegment (ch : Chan) (st : Endpoint) : Bool × Endpoint :=
  match ch.recvO st.rIdx with
  | none => (false, { st with rIdx := st.rIdx + 1 })
  | some raw =>
    let st0 : Endpoint := { st with rIdx := st.rIdx + 1 }
    let seg : TCPSegment := TCPSegment.load (raw.take (mss + service_len))
    let st1 : Endpoint :=
      if 0 < seg.data.length then
        let stA := { st0 with recv_window := pqPut (seg.seq_number, seg) st0.recv_window }
        let stB := processRecvWindowSt stA
        (sendSegment ch WireTag.pureAck ⟨stB.sent_bytes, stB.received_bytes, []⟩ stB).2
      else st0
    let st2 : Endpoint := { st1 with confirmed_bytes := seg.ack_number }
    let st3 : Endpoint := { st2 with send_window := processSendWindow st2.confirmed_bytes st2.send_window }
    (true, st3)

/-- Body of `MyTCPProtocol._resend_earliest_segment`: inspect the head of the
send window; if expired, pop it and re-send it. -/
def resendEarliestSegment (ch : Chan) (st : Endpoint) : Endpoint :=
  match st.send_window with
  | [] => st
  | (_, s) :: rest =>
    let expired := ch.expO st.eIdx
    let st1 : Endpoint := { st with eIdx := st.eIdx + 1 }
    if expired then
      (sendSegment ch WireTag.retrans s { st1 with send_window := rest }).2
    else st1

/-- Local state of one `MyTCPProtocol.send` call: the remaining `data`, the
running return value `sent_data_len`, and `lag`. -/
structure SendSt where
  data : List Nat
  tally : Int
  lag : Nat
  st : Endpoint

/-- Guard of the `while` loop in `send`:
`(data or confirmed < sent) and (lag < ack_crit_lag)`. -/
def sendLoopCond (s : SendSt) : Bool :=
  (!s.data.isEmpty || decide (s.st.confirmed_bytes < s.st.sent_bytes)) &&
    decide (s.lag < ack_crit_lag)

/-- One iteration of the `while` loop in `send`: either emit a fresh segment
(window not full and data left) or attempt one receive, then run the
retransmission check. -/
def sendStep (ch : Chan) (s : SendSt) : SendSt :=
  let windowIsFull : Prop := (window_size : Int) < s.st.sent_bytes - s.st.confirmed_bytes
  let s1 : SendSt :=
    if ¬windowIsFull ∧ s.data ≠ [] then
      let segment_size := min mss s.data.length
      let seg : TCPSegment := ⟨s.st.sent_bytes, s.st.received_bytes, s.data.take segment_size⟩
      let out := sendSegment ch WireTag.first seg s.st
      ⟨pyDrop s.data out.1, s.tally + out.1, s.lag, out.2⟩
    else
      let out := receiveSegment ch s.st
      ⟨s.data, s.tally, if out.1 then 0 else s.lag + 1, out.2⟩
  ⟨s1.data, s1.tally, s1.lag, resendEarliestSegment ch s1.st⟩

/-- Fuelled unfolding of the `while` loop in `send`; `none` means the loop is
still running after `fuel` iterations. -/
def sendFuel (ch : Chan) : Nat → SendSt → Option (Int × Endpoint)
  | 0, _ => none
  | fuel + 1, s =>
    if sendLoopCond s then sendFuel ch fuel (sendStep ch s) else some (s.tally, s.st)

/-- Loop of `MyTCPProtocol.recv`: while short of `n` bytes, one blocking
receive; a failed attempt breaks the loop. -/
def recvLoop (ch : Chan) : Nat → Int → List Nat → Endpoint → Option (List Nat × Endpoint)
  | 0, _, _, _ => none
  | fuel + 1, n, data, st =>
    if (data.length : Int) < n then
      let out := receiveSegment ch st
      if out.1 then
        let additional := pyTake out.2.buffer (n - data.length)
        recvLoop ch fuel n (data ++ additional)
          { out.2 with buffer := out.2.buffer.drop additional.length }
      else
        some (data, out.2)
    else
      some (data, st)

/-- Body of `MyTCPProtocol.recv`: serve `buffer[:n]` first, then loop. -/
def recvFuel (ch : Chan) (fuel : Nat) (n : Int) (st : Endpoint) :
    Option (List Nat × Endpoint) :=
  recvLoop ch fuel n (pyTake st.buffer n) { st with buffer := pyDrop st.buffer n }

/-- Every segment sitting in the send window has a non-empty payload. -/
def sendWindowPayloadsPos (st : Endpoint) : Prop :=
  ∀ e ∈ st.send_window, 0 < e.2.data.length

/-- Every send-window segment lies below `sent_bytes` and is non-empty. -/
def sendWindowBounded (st : Endpoint) : Prop :=
  ∀ e ∈ st.send_window,
    e.2.seq_number + (e.2.data.length : Int) ≤ st.sent_bytes ∧ 0 < e.2.data.length

/-- In-flight bytes stay below `window_size + mss`. -/
def inFlightBounded (st : Endpoint) : Prop :=
  st.sent_bytes - st.confirmed_bytes ≤ (window_size : Int) + (mss : Int)

/-- The datagram layer reports at least the header as written on every
`sendto` call. -/
def sendAccOk (ch : Chan) : Prop :=
  ∀ i, service_len ≤ ch.sendO i

/-- The next inbound segment, if any, does not regress the cumulative
acknowledgment. -/
def recvAckOk (ch : Chan) (st : Endpoint) : Prop :=
  ∀ raw, ch.recvO st.rIdx = some raw →
    st.confirmed_bytes ≤ (TCPSegment.load (raw.take (mss + service_len))).ack_number

/-- Non-retransmitted wire segments carry `ack = received_bytes` as of their
emission. -/
def wireAckInv (l : List WireEntry) : Prop :=
  ∀ e ∈ l, e.tag ≠ WireTag.retrans → e.seg.ack_number = e.recvAt

/-- Boolean check that every logged segment carried
`ack = received_bytes`-at-emission. -/
def wireAckMatches (l : List WireEntry) : Bool :=
  l.all fun e => e.seg.ack_number == e.recvAt

/-- Total payload the datagram layer accepted over first transmissions. -/
def firstAccepted (l : List WireEntry) : Int :=
  ((l.filter fun e => decide (e.tag = WireTag.first)).map fun e => e.accepted).sum

/-- States reachable by any sequence of send-loop iterations and inbound
segment receives, with no constraint on the channel. -/
inductive ReachAny : Endpoint → Prop where
  | init : ReachAny initEndpoint
  | stepSend (ch : Chan) (data : List Nat) (tally : Int) (lag : Nat) (st : Endpoint) :
      ReachAny st → ReachAny (sendStep ch ⟨data, tally, lag, st⟩).st
  | stepRecv (ch : Chan) (st : Endpoint) :
      ReachAny st → ReachAny (receiveSegment ch st).2

/-- States reachable by send-loop iterations and inbound segment receives
over a channel whose `sendto` accepts at least the header and whose inbound
acknowledgments never regress. -/
inductive ReachGood : Endpoint → Prop where
  | init : ReachGood initEndpoint
  | stepSend (ch : Chan) (data : List Nat) (tally : Int) (lag : Nat) (st : Endpoint) :
      ReachGood st → sendAccOk ch → recvAckOk ch st →
      ReachGood (sendStep ch ⟨data, tally, lag, st⟩).st
  | stepRecv (ch : Chan) (st : Endpoint) :
      ReachGood st → sendAccOk ch → recvAckOk ch st →
      ReachGood (receiveSegment ch st).2

/-- Termination measure for the send loop once receive attempts fail from
index `K` on. -/
def measC3 (K : Nat) (s : SendSt) : Nat :=
  s.data.length +
    (if s.st.rIdx < K then (K - s.st.rIdx) * (ack_crit_lag + 1) + ack_crit_lag
     else ack_crit_lag - s.lag)

/-- The send loop is still running after any number of iterations. -/
def sendDiverges (ch : Chan) (s : SendSt) : Prop :=
  ∀ fuel, sendFuel ch fuel s = none

/-- Pure acknowledgment datagram with `seq = 0`, `ack = 0`. -/
def ackRaw0 : List Nat := toBytesBE 8 0 ++ toBytesBE 8 0

/-- Pure acknowledgment datagram with `seq = 0`, `ack = 1`. -/
def aRaw1 : List Nat := toBytesBE 8 0 ++ toBytesBE 8 1

/-- Pure acknowledgment datagram with `seq = 0`, `ack = 3`. -/
def ack3raw : List Nat := toBytesBE 8 0 ++ toBytesBE 8 3

/-- Pure acknowledgment datagram with `seq = 0`, `ack = 9`. -/
def ack9raw : List Nat := toBytesBE 8 0 ++ toBytesBE 8 9

/-- Data datagram with `seq = 0`, `ack = 0` and a 3-byte payload. -/
def dRaw : List Nat := toBytesBE 8 0 ++ toBytesBE 8 0 ++ [9, 9, 9]

/-- Channel delivering a stale ack 3 first, then acks of 9. -/
def chC1 : Chan :=
  ⟨fun _ => 4000, fun i => if i = 0 then some ack3raw else some ack9raw, fun _ => false⟩

/-- Endpoint that has sent five bytes, all acknowledged. -/
def stFive : Endpoint := { initEndpoint with sent_bytes := 5, confirmed_bytes := 5 }

/-- Channel delivering one data segment, then an ack of 1, with the head
segment expiring at the second expiry check. -/
def chC2 : Chan :=
  ⟨fun _ => 4000, fun i => if i = 0 then some dRaw else if i = 1 then some aRaw1 else none,
   fun i => i == 1⟩

/-- Channel that always delivers a stale pure acknowledgment. -/
def chC3 : Chan := ⟨fun _ => 4000, fun _ => some ackRaw0, fun _ => false⟩

/-- Channel on which every receive attempt fails. -/
def chFail : Chan := ⟨fun _ => 4000, fun _ => none, fun _ => false⟩

/-- The one-byte segment sent first by `send [42]`. -/
def segC3 : TCPSegment := ⟨0, 0, [42]⟩

/-- Loop state of `send [42]` over `chC3` after `m + 1` iterations. -/
def stC3 (m : Nat) : SendSt :=
  ⟨[], 1, 0, ⟨1, 0, 0, [(0, segC3)], [], [], 1, m, m + 1,
    [⟨WireTag.first, segC3, 0, 1⟩]⟩⟩

/-- Loop state at entry of `send [42]` on a fresh endpoint. -/
def c3Start : SendSt := ⟨[42], 0, 0, initEndpoint⟩

/-- Channel acknowledging cumulatively `a` bytes on every receive. -/
def chAckN (a : Nat) : Chan :=
  ⟨fun _ => 1516, fun _ => some (toBytesBE 8 0 ++ toBytesBE 8 a), fun _ => false⟩

/-- Channel accepting whole datagrams whose receives all fail. -/
def chSendC4 : Chan := ⟨fun _ => 1516, fun _ => none, fun _ => false⟩

/-- One send-loop iteration with 1500 fresh bytes pending. -/
def doSend (st : Endpoint) : Endpoint :=
  (sendStep chSendC4 ⟨List.replicate 1500 0, 0, 0, st⟩).st

/-- One inbound pure acknowledgment of `a` bytes. -/
def doAck (a : Nat) (st : Endpoint) : Endpoint :=
  (receiveSegment (chAckN a) st).2

/-- Reachable state with 21000 unacknowledged bytes in flight: thirteen
segments sent, 1500 bytes acknowledged, one more segment sent, then a stale
acknowledgment of 0. -/
def c4CexState : Endpoint :=
  doAck 0 (doSend (doAck 1500 (doSend^[13] initEndpoint)))

/-- Channel with no traffic at all. -/
def ch0 : Chan := ⟨fun _ => 0, fun _ => none, fun _ => false⟩

theorem toBytesBE_length (k v : Nat) : (toBytesBE k v).length = k := by
  induction k generalizing v with
  | zero => rfl
  | succ k ih => simp [toBytesBE, ih]

theorem foldl_toBytesBE (k : Nat) : ∀ (a v : Nat),
    List.foldl (fun x b => x * 256 + b) a (toBytesBE k v) = a * 256 ^ k + v % 256 ^ k := by
  induction k with
  | zero => intro a v; simp [toBytesBE, Nat.mod_one]
  | succ k ih =>
    intro a v
    rw [toBytesBE, List.foldl_append]
    simp only [List.foldl_cons, List.foldl_nil]
    rw [ih]
    have h1 : v % 256 ^ (k + 1) = v % 256 + 256 * (v / 256 % 256 ^ k) := by
      rw [pow_succ']
      exact Nat.mod_mul
    rw [h1, pow_succ]
    ring

theorem fromBytesBE_toBytesBE8 (v : Nat) (h : v < 2 ^ 64) :
    fromBytesBE (toBytesBE 8 v) = v := by
  have h8 : (256 : Nat) ^ 8 = 2 ^ 64 := by norm_num
  rw [fromBytesBE, foldl_toBytesBE, h8]
  simpa using Nat.mod_eq_of_lt h

theorem fromBytesBE_replicate_zero (k : Nat) (l : List Nat) :
    fromBytesBE (List.replicate k 0 ++ l) = fromBytesBE l := by
  induction k with
  | zero => rfl
  | succ k ih =>
    simpa [fromBytesBE, List.replicate_succ, List.foldl_cons] using ih

/-- C9.  Segment codec round-trip: for seq and ack representable on eight
bytes, `dump` encodes the 8-byte big-endian seq, the 8-byte big-endian ack
(16 header bytes in all) followed by the payload, and `load` of that
encoding recovers the same seq, ack and payload. -/
theorem c9_codec_roundtrip (s : TCPSegment)
    (h0 : 0 ≤ s.seq_number) (h1 : s.seq_number < 2 ^ 64)
    (h2 : 0 ≤ s.ack_number) (h3 : s.ack_number < 2 ^ 64) :
    s.dump = some (toBytesBE 8 s.seq_number.toNat ++ toBytesBE 8 s.ack_number.toNat ++ s.data) ∧
    (toBytesBE 8 s.seq_number.toNat ++ toBytesBE 8 s.ack_number.toNat).length = service_len ∧
    TCPSegment.load
      (toBytesBE 8 s.seq_number.toNat ++ toBytesBE 8 s.ack_number.toNat ++ s.data) = s := by
  have lseq : (toBytesBE 8 s.seq_number.toNat).length = 8 := toBytesBE_length 8 _
  have lack : (toBytesBE 8 s.ack_number.toNat).length = 8 := toBytesBE_length 8 _
  refine ⟨?_, ?_, ?_⟩
  · rw [TCPSegment.dump, if_pos ⟨h0, h1, h2, h3⟩]
  · simp [lseq, lack, service_len]
  · have hseqN : s.seq_number.toNat < 2 ^ 64 := by omega
    have hackN : s.ack_number.toNat < 2 ^ 64 := by omega
    have htake : (toBytesBE 8 s.seq_number.toNat ++
        (toBytesBE 8 s.ack_number.toNat ++ s.data)).take 8 = toBytesBE 8 s.seq_number.toNat := by
      rw [List.take_append_of_le_length (by omega), List.take_of_length_le (by omega)]
    have hdrop : (toBytesBE 8 s.seq_number.toNat ++
        (toBytesBE 8 s.ack_number.toNat ++ s.data)).drop 8 =
        toBytesBE 8 s.ack_number.toNat ++ s.data := by
      rw [List.drop_append_of_le_length (by omega), List.drop_of_length_le (by omega)]
      simp
    have htake2 : (toBytesBE 8 s.ack_number.toNat ++ s.data).take 8 =
        toBytesBE 8 s.ack_number.toNat := by
      rw [List.take_append_of_le_length (by omega), List.take_of_length_le (by omega)]
    have hdrop16 : (toBytesBE 8 s.seq_number.toNat ++
        (toBytesBE 8 s.ack_number.toNat ++ s.data)).drop 16 = s.data := by
      rw [show (16 : Nat) = 8 + 8 by rfl, ← List.drop_drop, hdrop,
        List.drop_append_of_le_length (by omega), List.drop_of_length_le (by omega)]
      simp
    rw [TCPSegment.load]
    cases s with
    | mk sq ak dt =>
      simp only at htake hdrop htake2 hdrop16 hseqN hackN h0 h2 ⊢
      rw [show toBytesBE 8 sq.toNat ++ toBytesBE 8 ak.toNat ++ dt =
          toBytesBE 8 sq.toNat ++ (toBytesBE 8 ak.toNat ++ dt) from List.append_assoc .. ,
        htake, hdrop, htake2, show service_len = 16 from rfl, hdrop16,
        fromBytesBE_toBytesBE8 _ hseqN, fromBytesBE_toBytesBE8 _ hackN]
      simp only [TCPSegment.mk.injEq]
      refine ⟨by omega, by omega, trivial⟩

/-- C10.  `load` is total on every byte list: seq and ack are decoded from
whatever bytes the 8-byte fields actually have (absent high-order bytes
behave as zero), and the payload is empty as soon as the input is at most
16 bytes long. -/
theorem c10_load_total (d : List Nat) :
    (TCPSegment.load d).seq_number =
      (fromBytesBE (List.replicate (8 - (d.take 8).length) 0 ++ d.take 8) : Int) ∧
    (TCPSegment.load d).ack_number =
      (fromBytesBE (List.replicate (8 - ((d.drop 8).take 8).length) 0 ++
        (d.drop 8).take 8) : Int) ∧
    (d.length ≤ service_len → (TCPSegment.load d).data = []) := by
  refine ⟨?_, ?_, ?_⟩
  · rw [fromBytesBE_replicate_zero]; rfl
  · rw [fromBytesBE_replicate_zero]; rfl
  · intro h
    rw [TCPSegment.load]
    simpa using List.drop_eq_nil_of_le h

theorem c9_codec_roundtrip_witness :
    (⟨300, 7, [1, 2, 3]⟩ : TCPSegment).dump =
      some (toBytesBE 8 (300 : Int).toNat ++ toBytesBE 8 (7 : Int).toNat ++ [1, 2, 3]) ∧
    (toBytesBE 8 (300 : Int).toNat ++ toBytesBE 8 (7 : Int).toNat).length = service_len ∧
    TCPSegment.load
      (toBytesBE 8 (300 : Int).toNat ++ toBytesBE 8 (7 : Int).toNat ++ [1, 2, 3]) =
      ⟨300, 7, [1, 2, 3]⟩ :=
  c9_codec_roundtrip ⟨300, 7, [1, 2, 3]⟩ (by decide) (by decide) (by decide) (by decide)

theorem c10_load_total_witness :
    (TCPSegment.load [5]).seq_number =
      (fromBytesBE (List.replicate (8 - (([5] : List Nat).take 8).length) 0 ++
        ([5] : List Nat).take 8) : Int) ∧
    (TCPSegment.load [5]).data = [] :=
  ⟨(c10_load_total [5]).1, (c10_load_total [5]).2.2 (by decide)⟩

/-- C1 fails on the code: `_receive_segment` assigns
`confirmed_bytes := segment.ack_number` unconditionally, so an endpoint
with five sent and confirmed bytes that processes an inbound segment with
ack 3 sees `confirmed_bytes` drop to 3, and one with ack 9 sees it jump
above `sent_bytes`. -/
theorem c1_confirmed_bytes_overwritten :
    stFive.confirmed_bytes = 5 ∧ stFive.sent_bytes = 5 ∧
    (receiveSegment chC1 stFive).2.confirmed_bytes = 3 ∧
    (receiveSegment chC1 { stFive with rIdx := 1 }).2.confirmed_bytes = 9 := by
  decide

/-- C2 fails on the code: in a run of `send [42]` in which the peer answers
with a data segment before the unacknowledged head segment expires, the
retransmission emitted by `_resend_earliest_segment` still carries the ack
recorded at its creation (0), not the current `received_bytes` (3). -/
theorem c2_counterexample :
    (sendFuel chC2 4 ⟨[42], 0, 0, initEndpoint⟩).map (fun p => wireAckMatches p.2.wire) =
      some false := by
  decide

/-- C3 fails on the code: over a channel that keeps delivering stale pure
acknowledgments, every receive succeeds (resetting `lag`) while
`confirmed_bytes < sent_bytes` stays true, so `send [42]` never returns. -/
theorem c3_counterexample : sendDiverges chC3 c3Start := by
  have hstep : ∀ m, sendStep chC3 (stC3 m) = stC3 (m + 1) := fun m => rfl
  have hloop : ∀ fuel m, sendFuel chC3 fuel (stC3 m) = none := by
    intro fuel
    induction fuel with
    | zero => intro m; rfl
    | succ f ih =>
      intro m
      rw [sendFuel, if_pos (show sendLoopCond (stC3 m) = true from rfl), hstep]
      exact ih (m + 1)
  intro fuel
  cases fuel with
  | zero => rfl
  | succ f =>
    rw [sendFuel, if_pos (show sendLoopCond c3Start = true from rfl),
      show sendStep chC3 c3Start = stC3 0 from rfl]
    exact hloop f 0

theorem reachAny_doSend {st : Endpoint} (h : ReachAny st) : ReachAny (doSend st) :=
  ReachAny.stepSend chSendC4 (List.replicate 1500 0) 0 0 st h

theorem reachAny_doSend_iter (n : Nat) {st : Endpoint} (h : ReachAny st) :
    ReachAny (doSend^[n] st) := by
  induction n with
  | zero => exact h
  | succ k ih => rw [Function.iterate_succ_apply']; exact reachAny_doSend ih

set_option maxRecDepth 100000 in
/-- C4 fails on the code: the state reached by thirteen 1500-byte emissions,
an acknowledgment of 1500 bytes, one further emission and a stale inbound
acknowledgment of 0 is reachable by send-loop iterations and inbound
segments, yet carries 21000 > window_size + mss = 19500 unacknowledged
bytes in flight. -/
theorem c4_counterexample :
    ReachAny c4CexState ∧
      (window_size : Int) + (mss : Int) < c4CexState.sent_bytes - c4CexState.confirmed_bytes := by
  constructor
  · exact ReachAny.stepRecv (chAckN 0) _ (reachAny_doSend
      (ReachAny.stepRecv (chAckN 1500) _ (reachAny_doSend_iter 13 ReachAny.init)))
  · decide

/-- C7 fails on the code for a negative count: `recv (-1)` on a fresh
endpoint immediately returns the empty byte string, whose length 0 is not
at most -1. -/
theorem c7_counterexample :
    (recvFuel ch0 1 (-1) initEndpoint).map (fun p => decide ((p.1.length : Int) ≤ -1)) =
      some false := by
  decide

theorem processRecvWindow_delta (q : List (Int × TCPSegment)) : ∀ (r : Int) (b : List Nat),
    ∃ d, (processRecvWindow q r b).2.2 = b ++ d ∧
      (processRecvWindow q r b).2.1 = r + (d.length : Int) := by
  induction q with
  | nil => intro r b; exact ⟨[], by simp [processRecvWindow]⟩
  | cons x rest ih =>
    intro r b
    obtain ⟨k, s⟩ := x
    by_cases h1 : s.seq_number = r
    · simp only [processRecvWindow]
      rw [if_pos h1]
      obtain ⟨d, hd1, hd2⟩ := ih (r + (s.data.length : Int)) (b ++ s.data)
      refine ⟨s.data ++ d, by rw [hd1, List.append_assoc],
        by rw [hd2]; push_cast [List.length_append]; ring⟩
    · by_cases h2 : r < s.seq_number
      · simp only [processRecvWindow]
        rw [if_neg h1, if_pos h2]
        exact ⟨[], by simp⟩
      · simp only [processRecvWindow]
        rw [if_neg h1, if_neg h2]
        exact ih r b

/-- C6.  Reassembly drains the receive window from its lowest-seq element:
a head whose seq equals `received_bytes` has its payload appended and the
counter advanced by exactly that length, a head beyond `received_bytes` is
put back and draining stops, a head below `received_bytes` is discarded
silently; over the whole drain the buffer only grows by the delivered
payloads and `received_bytes` advances by exactly their total length. -/
theorem c6_recv_window_reassembly (k : Int) (s : TCPSegment)
    (rest : List (Int × TCPSegment)) (r : Int) (b : List Nat) :
    (s.seq_number = r →
      processRecvWindow ((k, s) :: rest) r b =
        processRecvWindow rest (r + (s.data.length : Int)) (b ++ s.data)) ∧
    (r < s.seq_number →
      processRecvWindow ((k, s) :: rest) r b = (pqPut (k, s) rest, r, b)) ∧
    (s.seq_number < r →
      processRecvWindow ((k, s) :: rest) r b = processRecvWindow rest r b) ∧
    (List.Pairwise (fun x y => x.1 ≤ y.1) ((k, s) :: rest) → ∀ e ∈ (k, s) :: rest, k ≤ e.1) ∧
    (∃ d, (processRecvWindow ((k, s) :: rest) r b).2.2 = b ++ d ∧
      (processRecvWindow ((k, s) :: rest) r b).2.1 = r + (d.length : Int)) := by
  refine ⟨?_, ?_, ?_, ?_, processRecvWindow_delta _ r b⟩
  · intro h; simp only [processRecvWindow]; rw [if_pos h]
  · intro h
    simp only [processRecvWindow]
    rw [if_neg (by omega), if_pos h]
  · intro h
    simp only [processRecvWindow]
    rw [if_neg (by omega), if_neg (by omega)]
  · intro hp e he
    rcases List.mem_cons.1 he with rfl | hmem
    · exact le_refl _
    · exact (List.pairwise_cons.1 hp).1 e hmem

theorem sendSegment_fst (ch : Chan) (tag : WireTag) (seg : TCPSegment) (st : Endpoint) :
    (sendSegment ch tag seg st).1 =
      (((min (ch.sendO st.sIdx) (service_len + seg.data.length) : Nat) : Int) -
        (service_len : Int)) :=
  rfl

theorem sendSegment_wire (ch : Chan) (tag : WireTag) (seg : TCPSegment) (st : Endpoint) :
    (sendSegment ch tag seg st).2.wire =
      st.wire ++ [⟨tag, seg, st.received_bytes, (sendSegment ch tag seg st).1⟩] := by
  simp only [sendSegment]
  split <;> split <;> rfl

theorem sendSegment_rIdx (ch : Chan) (tag : WireTag) (seg : TCPSegment) (st : Endpoint) :
    (sendSegment ch tag seg st).2.rIdx = st.rIdx := by
  simp only [sendSegment]
  split <;> split <;> rfl

theorem sendSegment_confirmed (ch : Chan) (tag : WireTag) (seg : TCPSegment) (st : Endpoint) :
    (sendSegment ch tag seg st).2.confirmed_bytes = st.confirmed_bytes := by
  simp only [sendSegment]
  split <;> split <;> rfl

theorem sendSegment_received (ch : Chan) (tag : WireTag) (seg : TCPSegment) (st : Endpoint) :
    (sendSegment ch tag seg st).2.received_bytes = st.received_bytes := by
  simp only [sendSegment]
  split <;> split <;> rfl

theorem sendSegment_buffer (ch : Chan) (tag : WireTag) (seg : TCPSegment) (st : Endpoint) :
    (sendSegment ch tag seg st).2.buffer = st.buffer := by
  simp only [sendSegment]
  split <;> split <;> rfl

theorem sendSegment_sent (ch : Chan) (tag : WireTag) (seg : TCPSegment) (st : Endpoint) :
    (sendSegment ch tag seg st).2.sent_bytes =
      (if seg.seq_number = st.sent_bytes then
        st.sent_bytes + (sendSegment ch tag seg st).1 else st.sent_bytes) := by
  simp only [sendSegment]
  split <;> split <;> rfl

theorem sendSegment_send_window (ch : Chan) (tag : WireTag) (seg : TCPSegment) (st : Endpoint) :
    (sendSegment ch tag seg st).2.send_window =
      (if 0 < (sendSegment ch tag seg st).1 then
        pqPut (seg.seq_number,
          { seg with data := seg.data.take (sendSegment ch tag seg st).1.toNat })
          st.send_window
      else st.send_window) := by
  simp only [sendSegment]
  split <;> split
  · rfl
  · rfl
  · rfl
  · rfl

theorem receiveSegment_rIdx (ch : Chan) (st : Endpoint) :
    (receiveSegment ch st).2.rIdx = st.rIdx + 1 := by
  cases hr : ch.recvO st.rIdx with
  | none => simp [receiveSegment, hr]
  | some raw =>
    simp only [receiveSegment, hr]
    split
    · rw [sendSegment_rIdx]; rfl
    · rfl

theorem wireAckInv_append (l : List WireEntry) (e : WireEntry)
    (he : e.tag = WireTag.retrans ∨ e.seg.ack_number = e.recvAt) (h : wireAckInv l) :
    wireAckInv (l ++ [e]) := by
  intro x hx htag
  rcases List.mem_append.1 hx with hx | hx
  · exact h x hx htag
  · have hxe := List.mem_singleton.1 hx
    subst hxe
    rcases he with he | he
    · exact absurd he htag
    · exact he

theorem sendSegment_wireAckInv (ch : Chan) (tag : WireTag) (seg : TCPSegment) (st : Endpoint)
    (hseg : tag = WireTag.retrans ∨ seg.ack_number = st.received_bytes)
    (h : wireAckInv st.wire) : wireAckInv (sendSegment ch tag seg st).2.wire := by
  rw [sendSegment_wire]
  exact wireAckInv_append _ _ hseg h

theorem resend_wireAckInv (ch : Chan) (st : Endpoint) (h : wireAckInv st.wire) :
    wireAckInv (resendEarliestSegment ch st).wire := by
  rw [resendEarliestSegment]
  cases hw : st.send_window with
  | nil => exact h
  | cons hd tl =>
    obtain ⟨k, s⟩ := hd
    dsimp only
    split
    · exact sendSegment_wireAckInv _ _ _ _ (Or.inl rfl) h
    · exact h

theorem receiveSegment_wireAckInv (ch : Chan) (st : Endpoint) (h : wireAckInv st.wire) :
    wireAckInv (receiveSegment ch st).2.wire := by
  cases hr : ch.recvO st.rIdx with
  | none => simpa [receiveSegment, hr] using h
  | some raw =>
    simp only [receiveSegment, hr]
    split
    · exact sendSegment_wireAckInv _ _ _ _ (Or.inr rfl) h
    · exact h

theorem sendStep_wireAckInv (ch : Chan) (s : SendSt) (h : wireAckInv s.st.wire) :
    wireAckInv (sendStep ch s).st.wire := by
  rw [sendStep]
  dsimp only
  split
  · exact resend_wireAckInv _ _ (sendSegment_wireAckInv _ _ _ _ (Or.inr rfl) h)
  · exact resend_wireAckInv _ _ (receiveSegment_wireAckInv _ _ h)

theorem sendFuel_wireAckInv (ch : Chan) : ∀ (fuel : Nat) (s : SendSt) (out : Int × Endpoint),
    sendFuel ch fuel s = some out → wireAckInv s.st.wire → wireAckInv out.2.wire := by
  intro fuel
  induction fuel with
  | zero => intro s out h; exact absurd h (by simp [sendFuel])
  | succ f ih =>
    intro s out h hw
    rw [sendFuel] at h
    by_cases hc : sendLoopCond s = true
    · rw [if_pos hc] at h
      exact ih _ _ h (sendStep_wireAckInv ch s hw)
    · rw [if_neg hc] at h
      simp only [Option.some.injEq] at h
      rw [← h]
      exact hw

theorem recvLoop_wireAckInv (ch : Chan) (n : Int) :
    ∀ (fuel : Nat) (data : List Nat) (st : Endpoint) (out : List Nat × Endpoint),
    recvLoop ch fuel n data st = some out → wireAckInv st.wire → wireAckInv out.2.wire := by
  intro fuel
  induction fuel with
  | zero => intro data st out h; exact absurd h (by simp [recvLoop])
  | succ f ih =>
    intro data st out h hw
    rw [recvLoop] at h
    by_cases h1 : (data.length : Int) < n
    · rw [if_pos h1] at h
      dsimp only at h
      by_cases h2 : (receiveSegment ch st).1 = true
      · rw [if_pos h2] at h
        exact ih _ _ _ h (receiveSegment_wireAckInv ch st hw)
      · rw [if_neg h2] at h
        simp only [Option.some.injEq] at h
        rw [← h]
        exact receiveSegment_wireAckInv ch st hw
    · rw [if_neg h1] at h
      simp only [Option.some.injEq] at h
      rw [← h]
      exact hw

/-- C2 amended.  A first transmission and a pure acknowledgment always carry
`ack = received_bytes` as of the moment they are handed to the datagram
layer, and this is preserved across `send`, `recv` and every inbound
segment; a retransmitted segment, however, carries the ack recorded when it
was first built, so only non-retransmitted wire segments are covered. -/
theorem c2_ack_field_amended :
    wireAckInv initEndpoint.wire ∧
    (∀ (ch : Chan) (fuel : Nat) (s : SendSt) (out : Int × Endpoint),
      sendFuel ch fuel s = some out → wireAckInv s.st.wire → wireAckInv out.2.wire) ∧
    (∀ (ch : Chan) (st : Endpoint),
      wireAckInv st.wire → wireAckInv (receiveSegment ch st).2.wire) ∧
    (∀ (ch : Chan) (fuel : Nat) (n : Int) (st : Endpoint) (out : List Nat × Endpoint),
      recvFuel ch fuel n st = some out → wireAckInv st.wire → wireAckInv out.2.wire) := by
  refine ⟨by simp [wireAckInv, initEndpoint], sendFuel_wireAckInv, receiveSegment_wireAckInv, ?_⟩
  intro ch fuel n st out h hw
  exact recvLoop_wireAckInv ch n fuel _ _ out h hw

theorem c2_ack_field_amended_witness : wireAckInv initEndpoint.wire :=
  c2_ack_field_amended.2.1 chFail 1 ⟨[], 0, 0, initEndpoint⟩ (0, initEndpoint) rfl
    (by simp [wireAckInv, initEndpoint])

theorem mem_pqPut {e x : Int × TCPSegment} : ∀ {l}, e ∈ pqPut x l → e = x ∨ e ∈ l := by
  intro l
  induction l with
  | nil =>
    intro h
    rw [pqPut] at h
    exact Or.inl (List.mem_singleton.1 h)
  | cons y ys ih =>
    intro h
    rw [pqPut] at h
    split at h
    · exact (List.mem_cons.1 h).imp id id
    · rcases List.mem_cons.1 h with rfl | h2
      · exact Or.inr (List.mem_cons_self _ _)
      · exact (ih h2).imp id (List.mem_cons_of_mem _)

theorem mem_processSendWindow {c : Int} :
    ∀ {l : List (Int × TCPSegment)} {e}, e ∈ processSendWindow c l → e ∈ l := by
  intro l
  induction l with
  | nil => intro e h; exact h
  | cons y ys ih =>
    intro e h
    obtain ⟨k, s⟩ := y
    rw [processSendWindow] at h
    split at h
    · exact List.mem_cons_of_mem _ (ih h)
    · exact h

theorem sendFuel_preserve (P : Endpoint → Prop) (ch : Chan)
    (hstep : ∀ s, P s.st → P (sendStep ch s).st) :
    ∀ (fuel : Nat) (s : SendSt) (out : Int × Endpoint),
      sendFuel ch fuel s = some out → P s.st → P out.2 := by
  intro fuel
  induction fuel with
  | zero => intro s out h; exact absurd h (by simp [sendFuel])
  | succ f ih =>
    intro s out h hp
    rw [sendFuel] at h
    by_cases hc : sendLoopCond s = true
    · rw [if_pos hc] at h
      exact ih _ _ h (hstep s hp)
    · rw [if_neg hc] at h
      simp only [Option.some.injEq] at h
      rw [← h]
      exact hp

theorem recvLoop_preserve (P : Endpoint → Prop) (ch : Chan) (n : Int)
    (hrecv : ∀ st, P st → P (receiveSegment ch st).2)
    (hbuf : ∀ st b, P st → P { st with buffer := b }) :
    ∀ (fuel : Nat) (data : List Nat) (st : Endpoint) (out : List Nat × Endpoint),
      recvLoop ch fuel n data st = some out → P st → P out.2 := by
  intro fuel
  induction fuel with
  | zero => intro data st out h; exact absurd h (by simp [recvLoop])
  | succ f ih =>
    intro data st out h hp
    rw [recvLoop] at h
    by_cases h1 : (data.length : Int) < n
    · rw [if_pos h1] at h
      dsimp only at h
      by_cases h2 : (receiveSegment ch st).1 = true
      · rw [if_pos h2] at h
        exact ih _ _ _ h (hbuf _ _ (hrecv st hp))
      · rw [if_neg h2] at h
        simp only [Option.some.injEq] at h
        rw [← h]
        exact hrecv st hp
    · rw [if_neg h1] at h
      simp only [Option.some.injEq] at h
      rw [← h]
      exact hp

theorem sendSegment_swpp (ch : Chan) (tag : WireTag) (seg : TCPSegment) (st : Endpoint)
    (h : sendWindowPayloadsPos st) : sendWindowPayloadsPos (sendSegment ch tag seg st).2 := by
  intro e he
  rw [sendSegment_send_window] at he
  by_cases hd : 0 < (sendSegment ch tag seg st).1
  · rw [if_pos hd] at he
    rcases mem_pqPut he with rfl | he2
    · have hmin : min (ch.sendO st.sIdx) (service_len + seg.data.length) ≤
          service_len + seg.data.length := Nat.min_le_right _ _
      have hfst := sendSegment_fst ch tag seg st
      simp only [List.length_take]
      omega
    · exact h e he2
  · rw [if_neg hd] at he
    exact h e he

theorem resend_swpp (ch : Chan) (st : Endpoint) (h : sendWindowPayloadsPos st) :
    sendWindowPayloadsPos (resendEarliestSegment ch st) := by
  rw [resendEarliestSegment]
  cases hw : st.send_window with
  | nil => exact h
  | cons hd tl =>
    obtain ⟨k, s⟩ := hd
    dsimp only
    split
    · apply sendSegment_swpp
      intro e he
      apply h
      rw [hw]
      exact List.mem_cons_of_mem _ he
    · intro e he
      apply h
      rw [hw]
      exact he

theorem receiveSegment_swpp (ch : Chan) (st : Endpoint) (h : sendWindowPayloadsPos st) :
    sendWindowPayloadsPos (receiveSegment ch st).2 := by
  cases hr : ch.recvO st.rIdx with
  | none =>
    simp only [receiveSegment, hr]
    exact h
  | some raw =>
    simp only [receiveSegment, hr]
    split
    · intro e he
      dsimp only at he
      refine sendSegment_swpp _ _ _ _ ?_ e (mem_processSendWindow he)
      exact fun x hx => h x hx
    · intro e he
      dsimp only at he
      exact h e (mem_processSendWindow he)

theorem sendStep_swpp (ch : Chan) (s : SendSt) (h : sendWindowPayloadsPos s.st) :
    sendWindowPayloadsPos (sendStep ch s).st := by
  rw [sendStep]
  dsimp only
  split
  · exact resend_swpp _ _ (sendSegment_swpp _ _ _ _ h)
  · exact resend_swpp _ _ (receiveSegment_swpp _ _ h)

/-- C8.  Pure-ack (zero payload) segments never enter the send window:
`_send_segment` inserts only when the accepted payload is positive, so the
initial state has only non-empty payloads in the send window and every
operation of the protocol preserves that. -/
theorem c8_send_window_payloads :
    sendWindowPayloadsPos initEndpoint ∧
    (∀ (ch : Chan) (tag : WireTag) (seg : TCPSegment) (st : Endpoint),
      sendWindowPayloadsPos st → sendWindowPayloadsPos (sendSegment ch tag seg st).2) ∧
    (∀ (ch : Chan) (fuel : Nat) (s : SendSt) (out : Int × Endpoint),
      sendFuel ch fuel s = some out → sendWindowPayloadsPos s.st →
        sendWindowPayloadsPos out.2) ∧
    (∀ (ch : Chan) (st : Endpoint),
      sendWindowPayloadsPos st → sendWindowPayloadsPos (receiveSegment ch st).2) ∧
    (∀ (ch : Chan) (fuel : Nat) (n : Int) (st : Endpoint) (out : List Nat × Endpoint),
      recvFuel ch fuel n st = some out → sendWindowPayloadsPos st →
        sendWindowPayloadsPos out.2) := by
  refine ⟨?_, sendSegment_swpp, ?_, receiveSegment_swpp, ?_⟩
  · intro e he
    exact absurd he (List.not_mem_nil e)
  · intro ch
    exact sendFuel_preserve sendWindowPayloadsPos ch (fun s => sendStep_swpp ch s)
  · intro ch fuel n st out h hp
    refine recvLoop_preserve sendWindowPayloadsPos ch n
      (fun st => receiveSegment_swpp ch st) (fun st b hb => ?_) fuel _ _ out h hp
    intro e he
    exact hb e he

theorem c8_send_window_payloads_witness : sendWindowPayloadsPos initEndpoint :=
  c8_send_window_payloads.2.2.1 chFail 1 ⟨[], 0, 0, initEndpoint⟩ (0, initEndpoint) rfl
    c8_send_window_payloads.1

theorem sendSegment_fst_le (ch : Chan) (tag : WireTag) (seg : TCPSegment) (st : Endpoint) :
    (sendSegment ch tag seg st).1 ≤ (seg.data.length : Int) := by
  rw [sendSegment_fst]
  have := Nat.min_le_right (ch.sendO st.sIdx) (service_len + seg.data.length)
  omega

theorem sendSegment_fst_nonneg (ch : Chan) (tag : WireTag) (seg : TCPSegment) (st : Endpoint)
    (h16 : sendAccOk ch) : 0 ≤ (sendSegment ch tag seg st).1 := by
  rw [sendSegment_fst]
  have := h16 st.sIdx
  omega

theorem sendSegment_empty_fst (ch : Chan) (tag : WireTag) (seg : TCPSegment) (st : Endpoint)
    (h16 : sendAccOk ch) (hseg : seg.data = []) : (sendSegment ch tag seg st).1 = 0 := by
  rw [sendSegment_fst, hseg]
  have := h16 st.sIdx
  simp only [List.length_nil, Nat.add_zero]
  omega

theorem sendSegment_empty (ch : Chan) (tag : WireTag) (seg : TCPSegment) (st : Endpoint)
    (h16 : sendAccOk ch) (hseg : seg.data = []) :
    (sendSegment ch tag seg st).2.sent_bytes = st.sent_bytes ∧
    (sendSegment ch tag seg st).2.send_window = st.send_window := by
  have h0 := sendSegment_empty_fst ch tag seg st h16 hseg
  constructor
  · rw [sendSegment_sent, h0]
    split <;> simp
  · rw [sendSegment_send_window, h0]
    simp

theorem sendSegment_c4_first (ch : Chan) (tag : WireTag) (seg : TCPSegment) (st : Endpoint)
    (h16 : sendAccOk ch) (hseq : seg.seq_number = st.sent_bytes)
    (hw : sendWindowBounded st) :
    sendWindowBounded (sendSegment ch tag seg st).2 ∧
    (sendSegment ch tag seg st).2.sent_bytes = st.sent_bytes + (sendSegment ch tag seg st).1 ∧
    0 ≤ (sendSegment ch tag seg st).1 ∧
    (sendSegment ch tag seg st).1 ≤ (seg.data.length : Int) := by
  have hd_le := sendSegment_fst_le ch tag seg st
  have hd_nn := sendSegment_fst_nonneg ch tag seg st h16
  refine ⟨?_, by rw [sendSegment_sent, if_pos hseq], hd_nn, hd_le⟩
  intro e he
  rw [sendSegment_send_window] at he
  rw [sendSegment_sent, if_pos hseq]
  by_cases hd : 0 < (sendSegment ch tag seg st).1
  · rw [if_pos hd] at he
    rcases mem_pqPut he with rfl | he2
    · dsimp only
      simp only [List.length_take]
      constructor <;> [skip; skip] <;> push_cast <;> omega
    · obtain ⟨h1, h2⟩ := hw e he2
      exact ⟨by omega, h2⟩
  · rw [if_neg hd] at he
    obtain ⟨h1, h2⟩ := hw e he
    exact ⟨by omega, h2⟩

theorem sendSegment_c4_stale (ch : Chan) (tag : WireTag) (seg : TCPSegment) (st : Endpoint)
    (hb : seg.seq_number + (seg.data.length : Int) ≤ st.sent_bytes)
    (hp : 0 < seg.data.length) (hw : sendWindowBounded st) :
    sendWindowBounded (sendSegment ch tag seg st).2 ∧
    (sendSegment ch tag seg st).2.sent_bytes = st.sent_bytes ∧
    (sendSegment ch tag seg st).2.confirmed_bytes = st.confirmed_bytes := by
  have hd_le := sendSegment_fst_le ch tag seg st
  have hne : seg.seq_number ≠ st.sent_bytes := by
    intro hcontra
    rw [hcontra] at hb
    omega
  refine ⟨?_, by rw [sendSegment_sent, if_neg hne], sendSegment_confirmed ch tag seg st⟩
  intro e he
  rw [sendSegment_send_window] at he
  rw [sendSegment_sent, if_neg hne]
  by_cases hd : 0 < (sendSegment ch tag seg st).1
  · rw [if_pos hd] at he
    rcases mem_pqPut he with rfl | he2
    · dsimp only
      simp only [List.length_take]
      constructor <;> push_cast <;> omega
    · exact hw e he2
  · rw [if_neg hd] at he
    exact hw e he

theorem resend_c4 (ch : Chan) (st : Endpoint) (_h16 : sendAccOk ch)
    (h : inFlightBounded st ∧ sendWindowBounded st) :
    inFlightBounded (resendEarliestSegment ch st) ∧
    sendWindowBounded (resendEarliestSegment ch st) := by
  rw [resendEarliestSegment]
  cases hw : st.send_window with
  | nil => exact h
  | cons hd tl =>
    obtain ⟨k, s⟩ := hd
    dsimp only
    split
    · have hbd := h.2 (k, s) (by rw [hw]; exact List.mem_cons_self _ _)
      have htl : sendWindowBounded { st with eIdx := st.eIdx + 1, send_window := tl } := by
        intro e he
        exact h.2 e (by rw [hw]; exact List.mem_cons_of_mem _ he)
      have hres := sendSegment_c4_stale ch WireTag.retrans s
        { st with eIdx := st.eIdx + 1, send_window := tl } hbd.1 hbd.2 htl
      refine ⟨?_, hres.1⟩
      rw [inFlightBounded, hres.2.1, hres.2.2]
      exact h.1
    · exact ⟨h.1, fun e he => h.2 e (by rw [hw]; exact he)⟩

theorem receiveSegment_confirmed_some (ch : Chan) (st : Endpoint) (raw : List Nat)
    (hr : ch.recvO st.rIdx = some raw) :
    (receiveSegment ch st).2.confirmed_bytes =
      (TCPSegment.load (raw.take (mss + service_len))).ack_number := by
  simp only [receiveSegment, hr]

theorem receiveSegment_sent_bytes (ch : Chan) (st : Endpoint) (h16 : sendAccOk ch) :
    (receiveSegment ch st).2.sent_bytes = st.sent_bytes := by
  cases hr : ch.recvO st.rIdx with
  | none => simp [receiveSegment, hr]
  | some raw =>
    simp only [receiveSegment, hr]
    split
    · exact (sendSegment_empty _ _ _ _ h16 rfl).1
    · rfl

theorem receiveSegment_send_window_sub (ch : Chan) (st : Endpoint) (h16 : sendAccOk ch) :
    ∀ e ∈ (receiveSegment ch st).2.send_window, e ∈ st.send_window := by
  intro e he
  cases hr : ch.recvO st.rIdx with
  | none =>
    rw [show (receiveSegment ch st).2.send_window = st.send_window by
      simp [receiveSegment, hr]] at he
    exact he
  | some raw =>
    simp only [receiveSegment, hr] at he
    by_cases hp : 0 < (TCPSegment.load (raw.take (mss + service_len))).data.length
    · rw [if_pos hp] at he
      have he2 := mem_processSendWindow he
      rw [(sendSegment_empty _ _ _ _ h16 rfl).2] at he2
      exact he2
    · rw [if_neg hp] at he
      exact mem_processSendWindow he

theorem receiveSegment_c4 (ch : Chan) (st : Endpoint) (h16 : sendAccOk ch)
    (hack : recvAckOk ch st) (h : inFlightBounded st ∧ sendWindowBounded st) :
    inFlightBounded (receiveSegment ch st).2 ∧ sendWindowBounded (receiveSegment ch st).2 := by
  have hs := receiveSegment_sent_bytes ch st h16
  constructor
  · cases hr : ch.recvO st.rIdx with
    | none =>
      have : (receiveSegment ch st).2.confirmed_bytes = st.confirmed_bytes := by
        simp [receiveSegment, hr]
      rw [inFlightBounded, hs, this]
      exact h.1
    | some raw =>
      have hc := receiveSegment_confirmed_some ch st raw hr
      have ha := hack raw hr
      rw [inFlightBounded, hs, hc]
      have h1 := h.1
      rw [inFlightBounded] at h1
      omega
  · intro e he
    obtain ⟨h1, h2⟩ := h.2 e (receiveSegment_send_window_sub ch st h16 e he)
    rw [hs]
    exact ⟨h1, h2⟩

theorem sendStep_c4 (ch : Chan) (s : SendSt) (h16 : sendAccOk ch) (hack : recvAckOk ch s.st)
    (h : inFlightBounded s.st ∧ sendWindowBounded s.st) :
    inFlightBounded (sendStep ch s).st ∧ sendWindowBounded (sendStep ch s).st := by
  rw [sendStep]
  dsimp only
  split
  · next hcond =>
    apply resend_c4 ch _ h16
    have hfirst := sendSegment_c4_first ch WireTag.first
      ⟨s.st.sent_bytes, s.st.received_bytes, s.data.take (min mss s.data.length)⟩ s.st h16 rfl h.2
    refine ⟨?_, hfirst.1⟩
    rw [inFlightBounded, hfirst.2.1, sendSegment_confirmed]
    have hlen : ((s.data.take (min mss s.data.length)).length : Int) ≤ (mss : Int) := by
      simp only [List.length_take]
      have := Nat.min_le_left mss s.data.length
      push_cast
      omega
    have hno : ¬((window_size : Int) < s.st.sent_bytes - s.st.confirmed_bytes) := hcond.1
    have hle := hfirst.2.2.2
    dsimp only at hle
    omega
  · apply resend_c4 ch _ h16
    exact receiveSegment_c4 ch s.st h16 hack h

theorem reachGood_inv (st : Endpoint) (h : ReachGood st) :
    inFlightBounded st ∧ sendWindowBounded st := by
  induction h with
  | init =>
    constructor
    · rw [inFlightBounded]
      decide
    · intro e he
      exact absurd he (List.not_mem_nil e)
  | stepSend ch data tally lag st hst h16 hack ih => exact sendStep_c4 ch _ h16 hack ih
  | stepRecv ch st hst h16 hack ih => exact receiveSegment_c4 ch st h16 hack ih

/-- C4 amended.  Over channels whose datagram layer accepts at least the
16-byte header on every `sendto` and whose inbound acknowledgments never
regress the cumulative `confirmed_bytes`, every state reachable from the
initial state by send-loop iterations and inbound segments satisfies
`sent_bytes - confirmed_bytes ≤ window_size + mss`; a stale inbound
acknowledgment, which the code applies unconditionally, can break the
bound. -/
theorem c4_bounded_in_flight_amended (st : Endpoint) (h : ReachGood st) :
    st.sent_bytes - st.confirmed_bytes ≤ (window_size : Int) + (mss : Int) :=
  (reachGood_inv st h).1

theorem c4_bounded_in_flight_amended_witness :
    initEndpoint.sent_bytes - initEndpoint.confirmed_bytes ≤ (window_size : Int) + (mss : Int) :=
  c4_bounded_in_flight_amended initEndpoint ReachGood.init

theorem receiveSegment_of_fail (ch : Chan) (st : Endpoint) (hr : ch.recvO st.rIdx = none) :
    receiveSegment ch st = (false, { st with rIdx := st.rIdx + 1 }) := by
  simp [receiveSegment, hr]

theorem resend_rIdx (ch : Chan) (st : Endpoint) :
    (resendEarliestSegment ch st).rIdx = st.rIdx := by
  rw [resendEarliestSegment]
  cases hw : st.send_window with
  | nil => rfl
  | cons hd tl =>
    obtain ⟨k, s⟩ := hd
    dsimp only
    split
    · rw [sendSegment_rIdx]
    · rfl

theorem pyDrop_ofNat (l : List Nat) (k : Nat) : pyDrop l (k : Int) = l.drop k := by
  rw [pyDrop, if_pos (Int.ofNat_nonneg k)]
  simp

theorem sendStep_sendBranch (ch : Chan) (s : SendSt)
    (hc : ¬((window_size : Int) < s.st.sent_bytes - s.st.confirmed_bytes) ∧ s.data ≠ []) :
    (sendStep ch s).data = pyDrop s.data (sendSegment ch WireTag.first
      ⟨s.st.sent_bytes, s.st.received_bytes, s.data.take (min mss s.data.length)⟩ s.st).1 ∧
    (sendStep ch s).lag = s.lag ∧
    (sendStep ch s).st.rIdx = s.st.rIdx := by
  rw [sendStep]
  dsimp only
  rw [if_pos hc]
  refine ⟨rfl, rfl, ?_⟩
  rw [resend_rIdx, sendSegment_rIdx]

theorem sendStep_recvBranch (ch : Chan) (s : SendSt)
    (hc : ¬(¬((window_size : Int) < s.st.sent_bytes - s.st.confirmed_bytes) ∧ s.data ≠ [])) :
    (sendStep ch s).data = s.data ∧
    (sendStep ch s).st.rIdx = s.st.rIdx + 1 ∧
    (sendStep ch s).lag =
      (if (receiveSegment ch s.st).1 = true then 0 else s.lag + 1) := by
  rw [sendStep]
  dsimp only
  rw [if_neg hc]
  refine ⟨rfl, ?_, rfl⟩
  rw [resend_rIdx, receiveSegment_rIdx]

theorem sendBranch_fst (ch : Chan) (s : SendSt)
    (hacc : ∀ i, service_len + mss ≤ ch.sendO i) :
    (sendSegment ch WireTag.first
      ⟨s.st.sent_bytes, s.st.received_bytes, s.data.take (min mss s.data.length)⟩ s.st).1 =
      ((min mss s.data.length : Nat) : Int) := by
  rw [sendSegment_fst]
  have h1 := hacc s.st.sIdx
  have hlen : ((⟨s.st.sent_bytes, s.st.received_bytes,
      s.data.take (min mss s.data.length)⟩ : TCPSegment)).data.length =
      min mss s.data.length := by
    simp only [List.length_take]
    omega
  rw [hlen]
  have hmle : min mss s.data.length ≤ mss := Nat.min_le_left _ _
  omega

theorem measC3_step (ch : Chan) (K : Nat) (s : SendSt)
    (hacc : ∀ i, service_len + mss ≤ ch.sendO i)
    (hfail : ∀ i, K ≤ i → ch.recvO i = none)
    (hcond : sendLoopCond s = true) :
    measC3 K (sendStep ch s) < measC3 K s := by
  have hlag : s.lag < ack_crit_lag := by
    rw [sendLoopCond] at hcond
    simp only [Bool.and_eq_true, decide_eq_true_eq] at hcond
    exact hcond.2
  by_cases hc : ¬((window_size : Int) < s.st.sent_bytes - s.st.confirmed_bytes) ∧ s.data ≠ []
  · obtain ⟨hd1, hd2, hd3⟩ := sendStep_sendBranch ch s hc
    have hfst := sendBranch_fst ch s hacc
    simp only [measC3, hd1, hd2, hd3, hfst, pyDrop_ofNat, List.length_drop]
    have hpos : 0 < s.data.length := List.length_pos.2 hc.2
    have hmss : 0 < mss := by decide
    omega
  · obtain ⟨hd1, hd2, hd3⟩ := sendStep_recvBranch ch s hc
    simp only [measC3, hd1, hd2, hd3]
    by_cases hrK : s.st.rIdx < K
    · by_cases hrK2 : s.st.rIdx + 1 < K
      · rw [if_pos hrK2, if_pos hrK]
        simp only [ack_crit_lag]
        omega
      · rw [if_neg hrK2, if_pos hrK]
        have hKr : K - s.st.rIdx = 1 := by omega
        rw [hKr]
        simp only [ack_crit_lag]
        omega
    · have hnone := hfail s.st.rIdx (by omega)
      have hfl : (receiveSegment ch s.st).1 = false := by
        rw [receiveSegment_of_fail ch s.st hnone]
      rw [if_neg (by omega : ¬(s.st.rIdx + 1 < K)), if_neg hrK, hfl]
      simp only [Bool.false_eq_true, if_false]
      omega

theorem sendFuel_terminates (ch : Chan) (K : Nat)
    (hacc : ∀ i, service_len + mss ≤ ch.sendO i)
    (hfail : ∀ i, K ≤ i → ch.recvO i = none) :
    ∀ (fuel : Nat) (s : SendSt), measC3 K s < fuel → (sendFuel ch fuel s).isSome = true := by
  intro fuel
  induction fuel with
  | zero => intro s h; exact absurd h (Nat.not_lt_zero _)
  | succ f ih =>
    intro s h
    rw [sendFuel]
    by_cases hc : sendLoopCond s = true
    · rw [if_pos hc]
      refine ih _ ?_
      have := measC3_step ch K s hacc hfail hc
      omega
    · rw [if_neg hc]
      rfl

/-- C3 amended.  The send loop terminates whenever the datagram layer
accepts whole datagrams and only finitely many receive attempts succeed:
with every receive failing from attempt `K` on, `send` returns within
`len(data) + K * (ack_crit_lag + 1) + ack_crit_lag` loop iterations, the
`lag` counter bounding each run of consecutive failures.  A channel that
keeps delivering segments while `confirmed_bytes < sent_bytes` keeps the
loop alive forever, so the claim's unconditional termination fails. -/
theorem c3_send_terminates_amended (ch : Chan) (K : Nat) (fuel : Nat) (s : SendSt)
    (hacc : ∀ i, service_len + mss ≤ ch.sendO i)
    (hfail : ∀ i, K ≤ i → ch.recvO i = none)
    (hfuel : s.data.length + K * (ack_crit_lag + 1) + ack_crit_lag < fuel) :
    (sendFuel ch fuel s).isSome = true := by
  apply sendFuel_terminates ch K hacc hfail
  rw [measC3]
  split
  · simp only [ack_crit_lag] at hfuel ⊢
    have : (K - s.st.rIdx) * 21 ≤ K * 21 := Nat.mul_le_mul_right _ (Nat.sub_le _ _)
    omega
  · omega

theorem c3_send_terminates_amended_witness :
    (sendFuel chFail 23 ⟨[1, 2], 0, 0, initEndpoint⟩).isSome = true :=
  c3_send_terminates_amended chFail 0 23 ⟨[1, 2], 0, 0, initEndpoint⟩
    (fun _ => by show service_len + mss ≤ 4000; decide) (fun _ _ => rfl) (by decide)

theorem firstAccepted_append (l1 l2 : List WireEntry) :
    firstAccepted (l1 ++ l2) = firstAccepted l1 + firstAccepted l2 := by
  simp [firstAccepted, List.filter_append]

theorem firstAccepted_single (e : WireEntry) :
    firstAccepted [e] = (if e.tag = WireTag.first then e.accepted else 0) := by
  by_cases h : e.tag = WireTag.first
  · simp [firstAccepted, h]
  · simp [firstAccepted, h]

theorem firstAccepted_sendSegment (ch : Chan) (tag : WireTag) (seg : TCPSegment)
    (st : Endpoint) :
    firstAccepted (sendSegment ch tag seg st).2.wire =
      firstAccepted st.wire +
        (if tag = WireTag.first then (sendSegment ch tag seg st).1 else 0) := by
  rw [sendSegment_wire, firstAccepted_append, firstAccepted_single]

theorem firstAccepted_resend (ch : Chan) (st : Endpoint) :
    firstAccepted (resendEarliestSegment ch st).wire = firstAccepted st.wire := by
  rw [resendEarliestSegment]
  cases hw : st.send_window with
  | nil => rfl
  | cons hd tl =>
    obtain ⟨k, s⟩ := hd
    dsimp only
    split
    · rw [firstAccepted_sendSegment]
      simp
    · rfl

theorem processRecvWindowSt_wire (st : Endpoint) : (processRecvWindowSt st).wire = st.wire :=
  rfl

theorem firstAccepted_receiveSegment (ch : Chan) (st : Endpoint) :
    firstAccepted (receiveSegment ch st).2.wire = firstAccepted st.wire := by
  cases hr : ch.recvO st.rIdx with
  | none => simp [receiveSegment, hr]
  | some raw =>
    simp only [receiveSegment, hr]
    split
    · rw [firstAccepted_sendSegment]
      simp [processRecvWindowSt_wire]
    · rfl

theorem sendStep_sendBranch2 (ch : Chan) (s : SendSt)
    (hc : ¬((window_size : Int) < s.st.sent_bytes - s.st.confirmed_bytes) ∧ s.data ≠ []) :
    (sendStep ch s).tally = s.tally + (sendSegment ch WireTag.first
      ⟨s.st.sent_bytes, s.st.received_bytes, s.data.take (min mss s.data.length)⟩ s.st).1 ∧
    firstAccepted (sendStep ch s).st.wire =
      firstAccepted s.st.wire + (sendSegment ch WireTag.first
        ⟨s.st.sent_bytes, s.st.received_bytes, s.data.take (min mss s.data.length)⟩ s.st).1 := by
  rw [sendStep]
  dsimp only
  rw [if_pos hc]
  refine ⟨rfl, ?_⟩
  rw [firstAccepted_resend, firstAccepted_sendSegment]
  simp

theorem sendStep_recvBranch2 (ch : Chan) (s : SendSt)
    (hc : ¬(¬((window_size : Int) < s.st.sent_bytes - s.st.confirmed_bytes) ∧ s.data ≠ [])) :
    (sendStep ch s).tally = s.tally ∧
    firstAccepted (sendStep ch s).st.wire = firstAccepted s.st.wire := by
  rw [sendStep]
  dsimp only
  rw [if_neg hc]
  refine ⟨rfl, ?_⟩
  rw [firstAccepted_resend, firstAccepted_receiveSegment]

theorem pyDrop_nonneg (l : List Nat) (i : Int) (h : 0 ≤ i) : pyDrop l i = l.drop i.toNat := by
  rw [pyDrop, if_pos h]

theorem sendStep_c5 (ch : Chan) (s : SendSt) (h16 : sendAccOk ch) :
    ∃ δ : Int, 0 ≤ δ ∧ (sendStep ch s).tally = s.tally + δ ∧
      firstAccepted (sendStep ch s).st.wire = firstAccepted s.st.wire + δ ∧
      (((sendStep ch s).data.length : Int) + δ = (s.data.length : Int)) := by
  by_cases hc : ¬((window_size : Int) < s.st.sent_bytes - s.st.confirmed_bytes) ∧ s.data ≠ []
  · obtain ⟨hd1, _, _⟩ := sendStep_sendBranch ch s hc
    obtain ⟨ht, hwire⟩ := sendStep_sendBranch2 ch s hc
    have hnn := sendSegment_fst_nonneg ch WireTag.first
      ⟨s.st.sent_bytes, s.st.received_bytes, s.data.take (min mss s.data.length)⟩ s.st h16
    have hle := sendSegment_fst_le ch WireTag.first
      ⟨s.st.sent_bytes, s.st.received_bytes, s.data.take (min mss s.data.length)⟩ s.st
    refine ⟨_, hnn, ht, hwire, ?_⟩
    rw [hd1, pyDrop_nonneg _ _ hnn]
    simp only [List.length_drop]
    dsimp only at hle
    simp only [List.length_take] at hle
    omega
  · obtain ⟨hd1, _, _⟩ := sendStep_recvBranch ch s hc
    obtain ⟨ht, hwire⟩ := sendStep_recvBranch2 ch s hc
    exact ⟨0, le_refl _, by rw [ht]; ring, by rw [hwire]; ring, by rw [hd1]; ring⟩

theorem sendFuel_c5 (ch : Chan) (h16 : sendAccOk ch) :
    ∀ (fuel : Nat) (s : SendSt) (out : Int × Endpoint), sendFuel ch fuel s = some out →
      out.1 - s.tally = firstAccepted out.2.wire - firstAccepted s.st.wire ∧
      0 ≤ out.1 - s.tally ∧
      out.1 - s.tally ≤ (s.data.length : Int) := by
  intro fuel
  induction fuel with
  | zero => intro s out h; exact absurd h (by simp [sendFuel])
  | succ f ih =>
    intro s out h
    rw [sendFuel] at h
    by_cases hc : sendLoopCond s = true
    · rw [if_pos hc] at h
      obtain ⟨δ, hδ0, ht, hwire, hdlen⟩ := sendStep_c5 ch s h16
      obtain ⟨ih1, ih2, ih3⟩ := ih _ _ h
      rw [ht, hwire] at ih1
      rw [ht] at ih2 ih3
      refine ⟨by omega, by omega, by omega⟩
    · rw [if_neg hc] at h
      simp only [Option.some.injEq] at h
      rw [← h]
      refine ⟨by ring, by omega, by simp⟩

/-- C5.  Provided the datagram layer reports at least the 16-byte header
written on every `sendto`, the integer returned by `send` is non-negative,
never exceeds `len(data)`, and equals the total payload the datagram layer
accepted over the call's first transmissions (the caller's cursor advances
by exactly that amount); retransmissions and pure acks contribute
nothing. -/
theorem c5_send_return_value (ch : Chan) (fuel : Nat) (data : List Nat) (st : Endpoint)
    (out : Int × Endpoint) (h16 : sendAccOk ch)
    (h : sendFuel ch fuel ⟨data, 0, 0, st⟩ = some out) :
    0 ≤ out.1 ∧ out.1 ≤ (data.length : Int) ∧
    out.1 = firstAccepted out.2.wire - firstAccepted st.wire := by
  obtain ⟨h1, h2, h3⟩ := sendFuel_c5 ch h16 fuel ⟨data, 0, 0, st⟩ out h
  dsimp only at h1 h2 h3
  exact ⟨by omega, by omega, by omega⟩

theorem c5_send_return_value_witness :
    (0 : Int) ≤ 2 ∧ (2 : Int) ≤ (([1, 2] : List Nat).length : Int) ∧
    (2 : Int) = firstAccepted
        [⟨WireTag.first, ⟨0, 0, [1, 2]⟩, 0, 2⟩] - firstAccepted initEndpoint.wire :=
  c5_send_return_value chFail 23 [1, 2] initEndpoint
    (2, ⟨2, 0, 0, [(0, ⟨0, 0, [1, 2]⟩)], [], [], 1, 20, 21,
      [⟨WireTag.first, ⟨0, 0, [1, 2]⟩, 0, 2⟩]⟩)
    (fun _ => by show service_len ≤ 4000; decide) (by decide)

theorem recvLoop_c7 (ch : Chan) (n : Int) (hn : 0 ≤ n) :
    ∀ (fuel : Nat) (data : List Nat) (st : Endpoint) (out : List Nat × Endpoint),
      recvLoop ch fuel n data st = some out → data.length ≤ n.toNat →
      out.1.length ≤ n.toNat ∧ ∃ ext, out.1 = data ++ ext := by
  intro fuel
  induction fuel with
  | zero => intro data st out h; exact absurd h (by simp [recvLoop])
  | succ f ih =>
    intro data st out h hlen
    rw [recvLoop] at h
    by_cases h1 : (data.length : Int) < n
    · rw [if_pos h1] at h
      dsimp only at h
      by_cases h2 : (receiveSegment ch st).1 = true
      · rw [if_pos h2] at h
        have hadd : (pyTake (receiveSegment ch st).2.buffer
            (n - (data.length : Int))).length ≤ (n - (data.length : Int)).toNat := by
          rw [pyTake, if_pos (by omega)]
          simp only [List.length_take]
          omega
        obtain ⟨hl, ext, hext⟩ := ih _ _ _ h (by simp only [List.length_append]; omega)
        refine ⟨hl, pyTake (receiveSegment ch st).2.buffer (n - (data.length : Int)) ++ ext, ?_⟩
        rw [hext, List.append_assoc]
      · rw [if_neg h2] at h
        simp only [Option.some.injEq] at h
        rw [← h]
        exact ⟨hlen, [], by simp⟩
    · rw [if_neg h1] at h
      simp only [Option.some.injEq] at h
      rw [← h]
      exact ⟨hlen, [], by simp⟩

/-- C7 amended.  For every nonnegative `n`, a completed `recv n` returns at
most `n` bytes, serves the front of the read buffer first (the result
extends `buffer[:n]`), and if the buffer is short and the first wire
receive attempt fails the call returns exactly the buffered prefix; for a
negative `n` the code returns `buffer[:n]` by Python slicing, which can be
longer than `n`, so the claim's bound holds only for `n ≥ 0`. -/
theorem c7_recv_amended (ch : Chan) (fuel : Nat) (n : Int) (st : Endpoint)
    (out : List Nat × Endpoint) (hn : 0 ≤ n) (h : recvFuel ch fuel n st = some out) :
    (out.1.length : Int) ≤ n ∧
    (∃ ext, out.1 = pyTake st.buffer n ++ ext) ∧
    (((pyTake st.buffer n).length : Int) < n → ch.recvO st.rIdx = none →
      out.1 = pyTake st.buffer n) := by
  rw [recvFuel] at h
  have hinit : (pyTake st.buffer n).length ≤ n.toNat := by
    rw [pyTake, if_pos hn]
    simp only [List.length_take]
    omega
  obtain ⟨h1, ext, hext⟩ := recvLoop_c7 ch n hn fuel _ _ out h hinit
  refine ⟨by omega, ⟨ext, hext⟩, ?_⟩
  intro hshort hfail
  cases fuel with
  | zero => exact absurd h (by simp [recvLoop])
  | succ f =>
    rw [recvLoop, if_pos hshort] at h
    have hfl : (receiveSegment ch { st with buffer := pyDrop st.buffer n }).1 = false := by
      rw [receiveSegment_of_fail ch { st with buffer := pyDrop st.buffer n } hfail]
    dsimp only at h
    rw [if_neg (by simp [hfl])] at h
    simp only [Option.some.injEq] at h
    rw [← h]

theorem c7_recv_amended_witness : ((([7, 7] : List Nat).length : Int) ≤ 2) :=
  (c7_recv_amended ch0 1 2 { initEndpoint with buffer := [7, 7, 7] }
    ([7, 7], { initEndpoint with buffer := [7] }) (by decide) (by decide)).1

theorem c6_recv_window_reassembly_witness :
    processRecvWindow [((0 : Int), (⟨0, 0, [5]⟩ : TCPSegment))] 0 [] =
      processRecvWindow [] (0 + (([5] : List Nat).length : Int)) ([] ++ [5]) ∧
    processRecvWindow [((2 : Int), (⟨2, 0, [5]⟩ : TCPSegment))] 0 [] =
      (pqPut (2, ⟨2, 0, [5]⟩) [], 0, []) ∧
    processRecvWindow [((0 : Int), (⟨0, 0, [5]⟩ : TCPSegment))] 1 [] =
      processRecvWindow [] 1 [] ∧
    (2 : Int) ≤ ((2 : Int), (⟨2, 0, [5]⟩ : TCPSegment)).1 :=
  ⟨(c6_recv_window_reassembly 0 ⟨0, 0, [5]⟩ [] 0 []).1 rfl,
   (c6_recv_window_reassembly 2 ⟨2, 0, [5]⟩ [] 0 []).2.1 (by decide),
   (c6_recv_window_reassembly 0 ⟨0, 0, [5]⟩ [] 1 []).2.2.1 (by decide),
   (c6_recv_window_reassembly 2 ⟨2, 0, [5]⟩ [] 0 []).2.2.2.1 (by decide) (2, ⟨2, 0, [5]⟩)
     (by decide)⟩

end MyTCP
